import Mathlib

set_option autoImplicit false

/-!
Verification development for the Streptomyces growth-model simulation engine.
Each definition is a shallow embedding of the corresponding Python function,
with numpy floats modelled as exact rationals and fallible code returning
Option (none standing for the raised exception).
-/

namespace Strepto

/-! ## Chemistry: src/src/chemistry/reaction.py -/

/-- Product of the falling sequence a, a-1, ..., a-n+1, the product of
np.arange(amount, amount - coefficient, -1) in Reaction.calc_reactorial_count. -/
def fallingProd (a : ℚ) : ℕ → ℚ
  | 0 => 1
  | n + 1 => a * fallingProd (a - 1) n

/-- One reactant entry of Reaction.reactants: the element's current molecule
count and its stoichiometric coefficient. -/
structure Reactant where
  amount : ℤ
  coefficient : ℕ
deriving DecidableEq

/-- Reaction (name omitted: it never enters the arithmetic). -/
structure Reaction where
  rate : ℚ
  reactants : List Reactant
deriving DecidableEq

/-- The per-species factor inside Reaction.calc_reactorial_count, with the same
three branches as the code (coefficient 1, coefficient 2, general). -/
def reactorialFactor (p : Reactant) : ℚ :=
  if p.coefficient = 1 then (p.amount : ℚ)
  else if p.coefficient = 2 then (p.amount : ℚ) * ((p.amount : ℚ) - 1) / 2
  else fallingProd (p.amount : ℚ) p.coefficient / (Nat.factorial p.coefficient : ℚ)

/-- Reaction.calc_reactorial_count: h starts at 1.0 and multiplies in each
reactant's factor. -/
def calc_reactorial_count (re : Reaction) : ℚ :=
  re.reactants.foldl (fun h p => h * reactorialFactor p) 1

/-- Reaction.calc_propensity: propensity = rate * calc_reactorial_count(). -/
def calc_propensity (re : Reaction) : ℚ :=
  re.rate * calc_reactorial_count re

/-! ## Weighted selection: src/src/algorithm/event/event.py -/

/-- Loop body of Event.find_index: running total over the array, returning the
loop index as soon as r < total. none models falling through the loop. -/
def findIndexLoop (r : ℚ) : List ℚ → ℚ → ℕ → Option ℕ
  | [], _, _ => none
  | a :: rest, total, i =>
    if r < total + a then some i else findIndexLoop r rest (total + a) (i + 1)

/-- Event.find_index: first index whose running sum strictly exceeds r, else
arr.size - 1 (a Python int, hence -1 on an empty array). -/
def find_index (arr : List ℚ) (r : ℚ) : ℤ :=
  match findIndexLoop r arr 0 0 with
  | some i => (i : ℤ)
  | none => (arr.length : ℤ) - 1

/-- Event.random_cell_event_index with the uniform draw r made explicit:
ravel the active cell-by-event matrix row-major, run find_index, and split the
flat index with divmod (Python floor division) by Event.total. -/
def random_cell_event_index (mat : List (List ℚ)) (numEvents : ℕ) (r : ℚ) :
    ℤ × ℤ :=
  let i := find_index mat.flatten r
  (i.fdiv (numEvents : ℤ), i.fmod (numEvents : ℤ))

/-- Sum of the first n entries: the running total after the loop has consumed
n entries. -/
def sumTake (l : List ℚ) (n : ℕ) : ℚ := (l.take n).sum

/-! ## Propensity assembly: Event.update_propensity / Event.state_mask_correction -/

/-- The per-event data entering the refresh phase: the linked Reaction's
current scalar propensity, the condition column indexes
(Event.conditions_indexes) and the ingoing state set. -/
structure EventSpec (numStates numConds : ℕ) where
  reactionPropensity : ℚ
  conditionsIndexes : List (Fin numConds)
  ingoingStates : List (Fin numStates)

/-- The per-cell data entering the refresh phase: the condition factor matrix
(Condition.cell_condition_factor_array) and each cell's current State. -/
structure RefreshContext (numCells numStates numConds : ℕ) where
  condFactor : Fin numCells → Fin numConds → ℚ
  cellState : Fin numCells → Fin numStates

/-- Event.update_propensity: the event's column starts from the reaction
propensity and multiplies in each listed condition's factor column. -/
def update_propensity {nc ns nk : ℕ} (ctx : RefreshContext nc ns nk)
    (ev : EventSpec ns nk) (cell : Fin nc) : ℚ :=
  ev.conditionsIndexes.foldl (fun acc ind => acc * ctx.condFactor cell ind)
    ev.reactionPropensity

/-- Event.state_mask_correction: elementwise product of the propensity matrix
with the cell-by-event mask matrix State.cell_mask_array. -/
def state_mask_correction {nc nE : ℕ} (prop mask : Fin nc → Fin nE → ℚ) :
    Fin nc → Fin nE → ℚ :=
  fun cell ev => prop cell ev * mask cell ev

/-- The whole refresh phase of GillespieSimulator._update_propensities acting
on the cell-by-event matrix: update_propensity for every event column, then
one state_mask_correction pass. -/
def refreshPropensities {nc nE ns nk : ℕ} (ctx : RefreshContext nc ns nk)
    (events : Fin nE → EventSpec ns nk) (mask : Fin nc → Fin nE → ℚ) :
    Fin nc → Fin nE → ℚ :=
  state_mask_correction (fun cell e => update_propensity ctx (events e) cell) mask

/-- k is the first flat index at which the running prefix sum strictly exceeds
the drawn value r. -/
def firstExceed (l : List ℚ) (r : ℚ) (k : ℕ) : Prop :=
  r < sumTake l (k + 1) ∧ ∀ j < k, sumTake l (j + 1) ≤ r

/-! ## Spatial hashing: src/src/algorithm/spatial/spatial_hashing.py -/

abbrev GridKey := ℤ × ℤ

/-- The per-colony grid: bucket key to the DynamicArray of stored cell
indexes, as an insertion-ordered association list. -/
abbrev Grid := List (GridKey × List ℤ)

/-- SpatialHashing.get_cell_key: integer floor of each coordinate divided by
partition_size. -/
def get_cell_key (partitionSize : ℚ) (point : ℚ × ℚ) : GridKey :=
  (⌊point.1 / partitionSize⌋, ⌊point.2 / partitionSize⌋)

/-- Dictionary lookup self.grid[key], as an Option. -/
def gridFind (g : Grid) (k : GridKey) : Option (List ℤ) :=
  match g.find? (fun p => decide (p.1 = k)) with
  | some p => some p.2
  | none => none

/-- SpatialHashing.neighbour_offsets: dx in (-1, 0, 1) crossed with dy in
(-1, 0, 1). -/
def neighbour_offsets : List (ℤ × ℤ) :=
  [(-1, -1), (-1, 0), (-1, 1), (0, -1), (0, 0), (0, 1), (1, -1), (1, 0), (1, 1)]

/-- SpatialHashing.query: np.concatenate over the occupied buckets of the 3x3
neighborhood of the point's key; none models the ValueError np.concatenate
raises when the list of arrays is empty. -/
def query (partitionSize : ℚ) (g : Grid) (point : ℚ × ℚ) : Option (List ℤ) :=
  let k := get_cell_key partitionSize point
  let buckets := neighbour_offsets.filterMap
    (fun d => gridFind g (k.1 + d.1, k.2 + d.2))
  if buckets = [] then none else some buckets.flatten

/-! ## Colony: src/src/algorithm/cell_based/colony.py -/

/-- The cell attributes Colony.remove_branch reads: Cell.index, Cell.center. -/
structure CellRef where
  index : ℤ
  center : ℚ × ℚ
deriving DecidableEq

/-- A colony's removal-relevant state: the member-index DynamicArray (active
view) and the spatial hash grid. -/
structure Colony where
  cell_indexes : List ℤ
  grid : Grid
deriving DecidableEq

/-- DynamicArray.batch_remove: keep exactly the active entries not contained
in values (the inverted np.isin mask). -/
def batch_remove (arr : List ℤ) (values : List ℤ) : List ℤ :=
  arr.filter (fun x => decide (x ∉ values))

/-- Python dict assignment key_group[key] = index: replaces the stored value
when the key exists, otherwise appends the new pair. -/
def dictInsert (d : List (GridKey × ℤ)) (k : GridKey) (v : ℤ) :
    List (GridKey × ℤ) :=
  if d.any (fun p => decide (p.1 = k)) then
    d.map (fun p => if p.1 = k then (k, v) else p)
  else d ++ [(k, v)]

/-- First loop of Colony.remove_branch: builds key_group (note the
overwriting dict assignment key_group[key] = index) and branch_inds. -/
def buildKeyGroup (ps : ℚ) (branch : List CellRef) :
    List (GridKey × ℤ) × List ℤ :=
  branch.foldl
    (fun acc cell =>
      (dictInsert acc.1 (get_cell_key ps cell.center) cell.index,
       acc.2 ++ [cell.index]))
    ([], [])

/-- Replaces the bucket stored under an existing grid key. -/
def gridUpdate (g : Grid) (k : GridKey) (bucket : List ℤ) : Grid :=
  g.map (fun p => if p.1 = k then (k, bucket) else p)

/-- Second loop of Colony.remove_branch: for each key_group item, batch_remove
the single stored index from that bucket; none models the KeyError raised by
self.cell_grid.grid[grid_key] when the key is absent. -/
def removeFromGrid (g : Grid) : List (GridKey × ℤ) → Option Grid
  | [] => some g
  | (k, ind) :: rest =>
    match gridFind g k with
    | none => none
    | some bucket =>
      removeFromGrid (gridUpdate g k (batch_remove bucket [ind])) rest

/-- Colony.remove_branch: batch_remove the branch indexes from the member
array, then remove each key_group entry from its grid bucket. -/
def remove_branch (ps : ℚ) (col : Colony) (branch : List CellRef) :
    Option Colony :=
  let bk := buildKeyGroup ps branch
  let newIndexes := batch_remove col.cell_indexes bk.2
  match removeFromGrid col.grid bk.1 with
  | none => none
  | some g => some ⟨newIndexes, g⟩

/-! ## Gillespie driver: src/src/algorithm/gillespie_algorithm.py -/

/-- The mutable driver state the claims track: simulated time, the
total_events counter, the iteration count (indexing the random draws), the
per-cell age column advanced by _increment_continuous_factors, and a log of
executed events (cell index, event index, firing time) standing for the
reaction + action + state-switch bundle Event.update runs on firing. -/
structure SimState where
  runTime : ℚ
  totalEvents : ℕ
  tick : ℕ
  cellAges : List ℚ
  firedEvents : List (ℕ × ℕ × ℚ)
deriving DecidableEq

/-- The per-iteration environment: the total propensity produced by the
refresh phase, the unit exponential draw behind np.random.exponential, and
the weighted (cell, event) pair from Event.random_cell_event_index. -/
structure Oracle where
  totalPropensity : ℕ → ℚ
  expDraw : ℕ → ℚ
  pick : ℕ → ℕ × ℕ

/-- GillespieSimulator._update_time_increment: tau is the exponential draw
scaled by 1 / total_propensity; none models the ZeroDivisionError of
1 / total_propensity when the total is zero. -/
def update_time_increment (total : ℚ) (unitDraw : ℚ) : Option ℚ :=
  if total = 0 then none else some (unitDraw * (1 / total))

/-- Outcome of one iteration of the while loop in GillespieSimulator.run. -/
inductive StepResult where
  | halted (reason : String) (s : SimState)
  | stepped (s : SimState)
  | zeroDivisionError
deriving DecidableEq

/-- One iteration of GillespieSimulator.run: loop guard, propensity refresh
(through the oracle), the zero-propensity halt, time increment, continuous
factors, the end-time halt, and _execute_event. -/
def gillespieStep (endTime : ℚ) (o : Oracle) (s : SimState) : StepResult :=
  if s.runTime < endTime then
    if o.totalPropensity s.tick = 0 then .halted "No reactions left" s
    else
      match update_time_increment (o.totalPropensity s.tick) (o.expDraw s.tick) with
      | none => .zeroDivisionError
      | some tau =>
        let s1 : SimState :=
          { s with runTime := s.runTime + tau,
                   cellAges := s.cellAges.map (fun a => a + tau) }
        if endTime ≤ s1.runTime then .halted "End time reached" s1
        else
          .stepped { s1 with
            totalEvents := s1.totalEvents + 1,
            firedEvents := s1.firedEvents ++
              [((o.pick s.tick).1, (o.pick s.tick).2, s1.runTime)],
            tick := s1.tick + 1 }
  else .halted "run loop exit" s

/-- The while loop of GillespieSimulator.run, with explicit fuel; the String
is the end condition reported by _end_of_simulation. -/
def gillespieRun (endTime : ℚ) (o : Oracle) :
    ℕ → SimState → SimState × Option String
  | 0, s => (s, none)
  | n + 1, s =>
    match gillespieStep endTime o s with
    | .halted reason s1 => (s1, some reason)
    | .stepped s1 => gillespieRun endTime o n s1
    | .zeroDivisionError => (s, some "ZeroDivisionError")

/-! ## Growable arrays: src/src/utils/dynamic_array.py -/

/-- DynamicArray: a zero-initialised backing buffer of capacity slots whose
populated prefix has length row_size; the active view is arr[:row_size]. -/
structure DynamicArray where
  capacity : ℕ
  row_size : ℕ
  arr : List ℚ
deriving DecidableEq

/-- DynamicArray.resize: double the capacity (resize_factor = 2, and
int(ceil(2 * c)) = 2 * c) and copy the old buffer into the fresh
zero-initialised one. -/
def DynamicArray.resize (a : DynamicArray) : DynamicArray :=
  { capacity := 2 * a.capacity,
    row_size := a.row_size,
    arr := a.arr ++ List.replicate (2 * a.capacity - a.arr.length) 0 }

/-- DynamicArray.append: resize when full, write the entry at index row_size,
then bump row_size. -/
def DynamicArray.append (a : DynamicArray) (entry : ℚ) : DynamicArray :=
  let b := if a.row_size = a.capacity then a.resize else a
  { b with arr := b.arr.set b.row_size entry, row_size := b.row_size + 1 }

/-- Dynamic2DArray: crows buffer rows of ccols columns, populated prefix of
row_size rows; the active view is arr[:row_size, :]. The capacity field is
inherited from DynamicArray: the subclass constructor sets it to
capacity_rows through super().__init__, and the overriding 2-D resize —
unlike the 1-D one — never updates it again. -/
structure Dynamic2DArray where
  capacity : ℕ
  crows : ℕ
  ccols : ℕ
  row_size : ℕ
  arr : List (List ℚ)
deriving DecidableEq

/-- Dynamic2DArray.__init__: a capacity_rows by capacity_columns zero matrix,
empty populated prefix, capacity set to capacity_rows by the superclass
constructor. -/
def mkDynamic2DArray (capacityRows capacityColumns : ℕ) : Dynamic2DArray :=
  { capacity := capacityRows, crows := capacityRows, ccols := capacityColumns,
    row_size := 0,
    arr := List.replicate capacityRows (List.replicate capacityColumns 0) }

/-- Dynamic2DArray.resize: double crows and copy only the active rows into
the fresh zero matrix (the remaining rows are zero rows in both); the
inherited capacity field is left stale. -/
def Dynamic2DArray.resize (a : Dynamic2DArray) : Dynamic2DArray :=
  { a with crows := 2 * a.crows,
           arr := a.arr.take a.row_size ++
             List.replicate (2 * a.crows - a.row_size) (List.replicate a.ccols 0) }

/-- Dynamic2DArray.append: resize when full, write the entry row at index
row_size (update_row), then bump row_size. -/
def Dynamic2DArray.append (a : Dynamic2DArray) (entry : List ℚ) : Dynamic2DArray :=
  let b := if a.row_size = a.crows then a.resize else a
  { b with arr := b.arr.set b.row_size entry, row_size := b.row_size + 1 }

/-- Dynamic2DArray.add_column: bump ccols, allocate np.zeros((capacity,
ccols + 1)) and copy the buffer into its first ccols columns. The numpy
assignment requires the buffer row count arr.shape[0] to equal the stale
capacity field; since crows starts equal to capacity and resize only doubles
crows upward, a resized buffer is strictly taller than capacity and the copy
raises a broadcast ValueError, modelled none. When the shapes agree every
buffer row is copied with a zero appended in the new column. -/
def Dynamic2DArray.add_column (a : Dynamic2DArray) : Option Dynamic2DArray :=
  if a.arr.length = a.capacity then
    some { a with ccols := a.ccols + 1,
                  arr := a.arr.map (fun row => row ++ [0]) }
  else none

end Strepto

namespace Strepto

theorem foldl_mul_eq_prod {α : Type} (f : α → ℚ) (b : ℚ) (l : List α) :
    l.foldl (fun acc x => acc * f x) b = b * (l.map f).prod := by
  induction l generalizing b with
  | nil => simp
  | cons a t ih => simp [List.foldl_cons, ih, mul_assoc]

theorem sumTake_cons (a : ℚ) (l : List ℚ) (n : ℕ) :
    sumTake (a :: l) (n + 1) = a + sumTake l n := by
  simp [sumTake, List.take_succ_cons]

theorem findIndexLoop_some (r : ℚ) :
    ∀ (l : List ℚ) (t : ℚ) (i j : ℕ), findIndexLoop r l t i = some j →
      ∃ k, j = i + k ∧ k < l.length ∧ r < t + sumTake l (k + 1) ∧
        ∀ m < k, t + sumTake l (m + 1) ≤ r := by
  intro l
  induction l with
  | nil => intro t i j h; simp [findIndexLoop] at h
  | cons a rest ih =>
    intro t i j h
    rw [findIndexLoop] at h
    by_cases hlt : r < t + a
    · rw [if_pos hlt] at h
      have hij : j = i := (Option.some.inj h).symm
      refine ⟨0, by omega, by simp, ?_, by omega⟩
      · simpa [sumTake_cons, sumTake] using hlt
    · rw [if_neg hlt] at h
      obtain ⟨k, hk, hklen, hexc, hle⟩ := ih (t + a) (i + 1) j h
      refine ⟨k + 1, by omega, by simpa using hklen, ?_, ?_⟩
      · rw [sumTake_cons]; linarith
      · intro m hm
        match m with
        | 0 =>
          rw [sumTake_cons]
          simpa [sumTake] using hlt
        | m + 1 =>
          rw [sumTake_cons]
          have := hle m (by omega)
          linarith

theorem findIndexLoop_none (r : ℚ) :
    ∀ (l : List ℚ) (t : ℚ) (i : ℕ), findIndexLoop r l t i = none →
      ∀ k < l.length, t + sumTake l (k + 1) ≤ r := by
  intro l
  induction l with
  | nil => intro t i _ k hk; simp at hk
  | cons a rest ih =>
    intro t i h k hk
    rw [findIndexLoop] at h
    by_cases hlt : r < t + a
    · rw [if_pos hlt] at h; exact absurd h (by simp)
    · rw [if_neg hlt] at h
      match k with
      | 0 => rw [sumTake_cons]; simpa [sumTake] using hlt
      | k + 1 =>
        rw [sumTake_cons]
        have := ih (t + a) (i + 1) h k (by simpa using hk)
        linarith

theorem findIndexLoop_none_of (r : ℚ) :
    ∀ (l : List ℚ) (t : ℚ) (i : ℕ),
      (∀ k < l.length, t + sumTake l (k + 1) ≤ r) →
      findIndexLoop r l t i = none := by
  intro l
  induction l with
  | nil => intro t i _; rfl
  | cons a rest ih =>
    intro t i h
    have h0 : t + a ≤ r := by simpa [sumTake_cons, sumTake] using h 0 (by simp)
    rw [findIndexLoop, if_neg (by linarith)]
    refine ih (t + a) (i + 1) ?_
    intro k hk
    have := h (k + 1) (by simpa using hk)
    rw [sumTake_cons] at this
    linarith

/-- With 0 <= r < the array total, the loop hits some index, and that index is
exactly the first prefix-sum exceedance. -/
theorem find_index_firstExceed (arr : List ℚ) (r : ℚ)
    (h0 : 0 ≤ r) (hr : r < arr.sum) :
    ∃ k : ℕ, find_index arr r = (k : ℤ) ∧ firstExceed arr r k := by
  rcases hloop : findIndexLoop r arr 0 0 with _ | j
  · exfalso
    have hall := findIndexLoop_none r arr 0 0 hloop
    match arr, hr, hall with
    | [], hr, hall => simp [List.sum_nil] at hr; linarith
    | a :: rest, hr, hall =>
      have hlast := hall rest.length (by simp)
      have htake : sumTake (a :: rest) (rest.length + 1) = (a :: rest).sum := by
        simp [sumTake]
      rw [htake] at hlast
      linarith
  · obtain ⟨k, hkj, _, hexc, hle⟩ := findIndexLoop_some r arr 0 0 j hloop
    refine ⟨j, by simp [find_index, hloop], ?_, ?_⟩
    · have : j = k := by omega
      rw [this]; linarith
    · intro m hm
      have : j = k := by omega
      have := hle m (by omega)
      linarith

theorem flatten_length_uniform (mat : List (List ℚ)) (n : ℕ)
    (h : ∀ row ∈ mat, row.length = n) :
    mat.flatten.length = mat.length * n := by
  induction mat with
  | nil => simp
  | cons row t ih =>
    simp only [List.flatten_cons, List.length_append, List.length_cons]
    rw [h row (by simp), ih (fun q hq => h q (by simp [hq]))]
    ring

theorem sumTake_le_sum (l : List ℚ) (hl : ∀ x ∈ l, 0 ≤ x) (n : ℕ) :
    sumTake l n ≤ l.sum := by
  have hsplit : l.sum = sumTake l n + (l.drop n).sum := by
    rw [sumTake, ← List.sum_append, List.take_append_drop]
  have hdrop : 0 ≤ (l.drop n).sum :=
    List.sum_nonneg (fun x hx => hl x (List.mem_of_mem_drop hx))
  linarith

/-- Unfolds the fdiv/fmod pair of random_cell_event_index to Nat divmod once
the find_index result is known to be the cast of a Nat. -/
theorem random_cell_event_index_eq (mat : List (List ℚ)) (n : ℕ) (r : ℚ)
    (k : ℕ) (hfi : find_index mat.flatten r = (k : ℤ)) :
    random_cell_event_index mat n r = (((k / n : ℕ) : ℤ), ((k % n : ℕ) : ℤ)) := by
  simp only [random_cell_event_index, hfi]
  rw [← Int.ofNat_fdiv, ← Int.ofNat_fmod]

/-- C3: Reaction.calc_propensity computes rate times the product over reactant
species of fallingProd(count, coefficient) / coefficient!, the branches for
coefficients 1 and 2 agreeing with the general falling-factorial form; the two
concrete instances of the spec evaluate as stated. -/
theorem reaction_calc_propensity_falling_factorial :
    (∀ re : Reaction, calc_propensity re =
      re.rate * (re.reactants.map (fun p =>
        fallingProd (p.amount : ℚ) p.coefficient /
          (Nat.factorial p.coefficient : ℚ))).prod) ∧
    calc_propensity ⟨1 / 2, [⟨10, 1⟩]⟩ = 5 ∧
    calc_propensity ⟨1 / 2, [⟨5, 2⟩]⟩ = (1 / 2) * 10 := by
  have hfac : ∀ p : Reactant, reactorialFactor p =
      fallingProd (p.amount : ℚ) p.coefficient /
        (Nat.factorial p.coefficient : ℚ) := by
    intro ⟨a, c⟩
    match c with
    | 0 => simp [reactorialFactor]
    | 1 => simp [reactorialFactor, fallingProd, Nat.factorial]
    | 2 =>
      simp only [reactorialFactor, fallingProd, Nat.factorial]
      norm_num
    | (n + 3) => simp [reactorialFactor]
  refine ⟨?_, ?_, ?_⟩
  · intro re
    rw [calc_propensity, calc_reactorial_count, foldl_mul_eq_prod reactorialFactor 1,
      one_mul]
    exact congrArg (re.rate * List.prod ·)
      (List.map_congr_left (fun p _ => hfac p))
  · simp [calc_propensity, calc_reactorial_count, reactorialFactor]
    norm_num
  · simp [calc_propensity, calc_reactorial_count, reactorialFactor]
    norm_num

/-- C2: with a drawn value 0 <= r < total propensity, random_cell_event_index
returns the (cell, event) pair whose row-major flat position
cell * numEvents + event is the first flat index at which the running prefix
sum of the flattened propensity matrix strictly exceeds r. -/
theorem event_random_cell_event_index_first_exceed
    (mat : List (List ℚ)) (numEvents : ℕ) (r : ℚ)
    (hrows : ∀ row ∈ mat, row.length = numEvents) (hne : 0 < numEvents)
    (h0 : 0 ≤ r) (hr : r < mat.flatten.sum) :
    ∃ c e : ℕ, random_cell_event_index mat numEvents r = ((c : ℤ), (e : ℤ)) ∧
      e < numEvents ∧ firstExceed mat.flatten r (c * numEvents + e) := by
  obtain ⟨k, hfi, hfe⟩ := find_index_firstExceed mat.flatten r h0 hr
  refine ⟨k / numEvents, k % numEvents,
    random_cell_event_index_eq mat numEvents r k hfi, Nat.mod_lt _ hne, ?_⟩
  have hk : k / numEvents * numEvents + k % numEvents = k := by
    rw [Nat.mul_comm]; exact Nat.div_add_mod k numEvents
  rwa [hk]

/-- C2 witness: on the matrix [[1,2],[3,4]] with 2 events and r = 3, the
selection is cell 1, event 0 (flat index 2, prefix sums 1, 3, 6, 10). -/
theorem event_random_cell_event_index_first_exceed_witness :
    ∃ c e : ℕ,
      random_cell_event_index [[(1 : ℚ), 2], [3, 4]] 2 3 = ((c : ℤ), (e : ℤ)) ∧
      e < 2 ∧ firstExceed [[(1 : ℚ), 2], [3, 4]].flatten 3 (c * 2 + e) :=
  event_random_cell_event_index_first_exceed [[(1 : ℚ), 2], [3, 4]] 2 3
    (by intro row hrow
        simp only [List.mem_cons, List.not_mem_nil, or_false] at hrow
        rcases hrow with rfl | rfl <;> rfl)
    (by norm_num) (by norm_num)
    (by simp [List.flatten_cons]; norm_num)

/-- C10: when the drawn value reaches or passes the total of a non-empty
non-negative flattened array, find_index falls through to the last flat index
size - 1; consequently random_cell_event_index stays within the bounds of the
active matrix for every r between 0 and the total, boundary included. -/
theorem event_find_index_in_bounds :
    (∀ (arr : List ℚ) (r : ℚ), arr ≠ [] → (∀ x ∈ arr, 0 ≤ x) → arr.sum ≤ r →
      find_index arr r = (arr.length : ℤ) - 1) ∧
    (∀ (mat : List (List ℚ)) (numEvents : ℕ) (r : ℚ),
      (∀ row ∈ mat, row.length = numEvents) → mat ≠ [] → 0 < numEvents →
      0 ≤ r → r ≤ mat.flatten.sum →
      ∃ c e : ℕ, random_cell_event_index mat numEvents r = ((c : ℤ), (e : ℤ)) ∧
        c < mat.length ∧ e < numEvents) := by
  constructor
  · intro arr r hne hnn hsum
    have hnone : findIndexLoop r arr 0 0 = none := by
      refine findIndexLoop_none_of r arr 0 0 ?_
      intro k _
      have := sumTake_le_sum arr hnn (k + 1)
      linarith
    simp [find_index, hnone]
  · intro mat numEvents r hrows hmat hne h0 hr
    have hlen : mat.flatten.length = mat.length * numEvents :=
      flatten_length_uniform mat numEvents hrows
    have hmatlen : 0 < mat.length := List.length_pos.mpr hmat
    have hflatlen : 0 < mat.flatten.length := by
      rw [hlen]; exact Nat.mul_pos hmatlen hne
    have hbound : ∃ k : ℕ, find_index mat.flatten r = (k : ℤ) ∧
        k < mat.flatten.length := by
      rcases hloop : findIndexLoop r mat.flatten 0 0 with _ | j
      · refine ⟨mat.flatten.length - 1, ?_, by omega⟩
        simp only [find_index, hloop]
        omega
      · obtain ⟨k, hkj, hklen, _, _⟩ :=
          findIndexLoop_some r mat.flatten 0 0 j hloop
        exact ⟨j, by simp [find_index, hloop], by omega⟩
    obtain ⟨k, hfi, hklen⟩ := hbound
    refine ⟨k / numEvents, k % numEvents,
      random_cell_event_index_eq mat numEvents r k hfi, ?_, Nat.mod_lt _ hne⟩
    rw [Nat.div_lt_iff_lt_mul hne]
    omega

/-- C10 witness: on the matrix [[1,2],[3,4]] with 2 events and the boundary
draw r = 10 = total, find_index on a small array falls through to the last
index and the selected pair is in bounds. -/
theorem event_find_index_in_bounds_witness :
    find_index [(1 : ℚ), 2] 10 = ([(1 : ℚ), 2].length : ℤ) - 1 ∧
    (∃ c e : ℕ,
      random_cell_event_index [[(1 : ℚ), 2], [3, 4]] 2 10 = ((c : ℤ), (e : ℤ)) ∧
      c < [[(1 : ℚ), 2], [3, 4]].length ∧ e < 2) :=
  ⟨event_find_index_in_bounds.1 [(1 : ℚ), 2] 10 (by simp)
     (by intro x hx
         simp only [List.mem_cons, List.not_mem_nil, or_false] at hx
         rcases hx with rfl | rfl <;> norm_num)
     (by norm_num),
   event_find_index_in_bounds.2 [[(1 : ℚ), 2], [3, 4]] 2 10
     (by intro row hrow
         simp only [List.mem_cons, List.not_mem_nil, or_false] at hrow
         rcases hrow with rfl | rfl <;> rfl)
     (by simp) (by norm_num) (by norm_num)
     (by simp [List.flatten_cons]; norm_num)⟩

/-- C1: after the propensity-refresh phase, provided the mask matrix carries
the state-membership indicator (the invariant State.cell_mask_array maintains
via SwitchState.update and the spore bootstrap), every entry of the
cell-by-event matrix equals the event's reaction propensity times the product
of its listed condition factors times the ingoing indicator; in particular it
is 0 whenever the cell's current state is not in the event's ingoing set. -/
theorem event_propensity_invariant {nc nE ns nk : ℕ}
    (ctx : RefreshContext nc ns nk) (events : Fin nE → EventSpec ns nk)
    (mask : Fin nc → Fin nE → ℚ)
    (hmask : ∀ c e, mask c e =
      if ctx.cellState c ∈ (events e).ingoingStates then 1 else 0) :
    (∀ c e, refreshPropensities ctx events mask c e =
      (events e).reactionPropensity *
        ((events e).conditionsIndexes.map (ctx.condFactor c)).prod *
        (if ctx.cellState c ∈ (events e).ingoingStates then 1 else 0)) ∧
    (∀ c e, ctx.cellState c ∉ (events e).ingoingStates →
      refreshPropensities ctx events mask c e = 0) := by
  have hval : ∀ c e, refreshPropensities ctx events mask c e =
      (events e).reactionPropensity *
        ((events e).conditionsIndexes.map (ctx.condFactor c)).prod *
        (if ctx.cellState c ∈ (events e).ingoingStates then 1 else 0) := by
    intro c e
    rw [refreshPropensities, state_mask_correction, update_propensity,
      foldl_mul_eq_prod, hmask]
  refine ⟨hval, fun c e hn => ?_⟩
  rw [hval c e, if_neg hn, mul_zero]

/-- C1 witness: one cell in state 0, one event with ingoing set containing
state 0, reaction propensity 2 and a single condition factor 3: the refreshed
entry is 2 * 3 * 1 = 6. -/
theorem event_propensity_invariant_witness :
    @refreshPropensities 1 1 2 1 ⟨fun _ _ => 3, fun _ => 0⟩
      (fun _ => ⟨2, [0], [0]⟩) (fun _ _ => 1) 0 0 = 6 := by
  have h := (@event_propensity_invariant 1 1 2 1 ⟨fun _ _ => 3, fun _ => 0⟩
    (fun _ => ⟨2, [0], [0]⟩) (fun _ _ => 1) (by intro c e; simp)).1 0 0
  simp at h
  convert h using 1
  norm_num

theorem get_cell_key_unit_int (x y : ℤ) :
    get_cell_key 1 ((x : ℚ), (y : ℚ)) = (x, y) := by
  simp [get_cell_key]

/-- C4 evidence: removing a two-cell branch whose cells share the bucket key
(0, 0) removes both indexes from the member array but only the later index 1
from the bucket: the overwriting assignment key_group[key] = index drops the
earlier cell, so the removed index 0 survives in the grid bucket. -/
theorem colony_remove_branch_shared_bucket_leak :
    remove_branch 1 ⟨[0, 1], [((0, 0), [0, 1])]⟩
        [⟨0, ((0 : ℚ), (0 : ℚ))⟩, ⟨1, ((0 : ℚ), (0 : ℚ))⟩] =
      some ⟨[], [((0, 0), [0])]⟩ := by
  have hkey : get_cell_key 1 ((0 : ℚ), (0 : ℚ)) = ((0 : ℤ), (0 : ℤ)) :=
    get_cell_key_unit_int 0 0
  simp only [remove_branch, buildKeyGroup, List.foldl_cons, List.foldl_nil,
    hkey, dictInsert, batch_remove, removeFromGrid, gridFind, gridUpdate]
  decide

/-- C5 evidence: a query whose 3x3 key neighborhood touches no occupied
bucket reaches np.concatenate with an empty list and raises (modelled none)
instead of returning an empty neighbor set. -/
theorem spatial_query_empty_neighborhood_raises :
    query 1 [((0, 0), [0])] ((100 : ℚ), (100 : ℚ)) = none := by
  have hkey : get_cell_key 1 ((100 : ℚ), (100 : ℚ)) = ((100 : ℤ), (100 : ℤ)) :=
    get_cell_key_unit_int 100 100
  simp only [query, hkey, neighbour_offsets, gridFind]
  decide

/-- C7 counterexample: remove_branch with a cell index 5 that is not a member
of the colony completes silently (no exception, member array unchanged)
whenever the non-member's bucket key is occupied, instead of failing fast. -/
theorem colony_remove_branch_nonmember_silent :
    remove_branch 1 ⟨[0], [((0, 0), [0])]⟩ [⟨5, ((0 : ℚ), (0 : ℚ))⟩] =
      some ⟨[0], [((0, 0), [0])]⟩ := by
  have hkey : get_cell_key 1 ((0 : ℚ), (0 : ℚ)) = ((0 : ℤ), (0 : ℤ)) :=
    get_cell_key_unit_int 0 0
  simp only [remove_branch, buildKeyGroup, List.foldl_cons, List.foldl_nil,
    hkey, dictInsert, batch_remove, removeFromGrid, gridFind, gridUpdate]
  decide

/-- C7 amended: removing a single cell (member or not) raises only the
incidental KeyError when the cell's bucket key is absent from the grid; when
the bucket key is occupied the call completes without raising, merely
filtering the cell's index out of the member array and that one bucket —
there is no fail-fast membership assertion. -/
theorem colony_remove_branch_nonmember_behavior (ps : ℚ) (col : Colony)
    (cell : CellRef) :
    (gridFind col.grid (get_cell_key ps cell.center) = none →
      remove_branch ps col [cell] = none) ∧
    (∀ bucket, gridFind col.grid (get_cell_key ps cell.center) = some bucket →
      remove_branch ps col [cell] =
        some ⟨batch_remove col.cell_indexes [cell.index],
              gridUpdate col.grid (get_cell_key ps cell.center)
                (batch_remove bucket [cell.index])⟩) := by
  constructor
  · intro habs
    simp [remove_branch, buildKeyGroup, dictInsert, removeFromGrid, habs]
  · intro bucket hocc
    simp [remove_branch, buildKeyGroup, dictInsert, removeFromGrid, hocc]

/-- C7 amendment witness: a colony whose grid holds only bucket (0, 0),
asked to remove a cell keyed at (9, 9): the KeyError branch fires. -/
theorem colony_remove_branch_nonmember_behavior_witness :
    remove_branch 1 ⟨[0], [((0, 0), [0])]⟩ [⟨5, ((9 : ℚ), (9 : ℚ))⟩] = none :=
  (colony_remove_branch_nonmember_behavior 1 ⟨[0], [((0, 0), [0])]⟩
      ⟨5, ((9 : ℚ), (9 : ℚ))⟩).1
    (by norm_num [get_cell_key, gridFind, List.find?]; decide)

/-- C6: one driver iteration can never reach the division by zero inside
_update_time_increment, and when the refreshed total propensity is zero under
the loop guard the iteration halts cleanly with the no-reactions-left end
condition. -/
theorem gillespie_zero_propensity_clean_halt (endTime : ℚ) (o : Oracle)
    (s : SimState) :
    gillespieStep endTime o s ≠ StepResult.zeroDivisionError ∧
    (s.runTime < endTime → o.totalPropensity s.tick = 0 →
      gillespieStep endTime o s = StepResult.halted "No reactions left" s) := by
  constructor
  · rw [gillespieStep]
    by_cases hrt : s.runTime < endTime
    · rw [if_pos hrt]
      by_cases h0 : o.totalPropensity s.tick = 0
      · simp [h0]
      · have hupd : update_time_increment (o.totalPropensity s.tick)
            (o.expDraw s.tick) =
            some (o.expDraw s.tick * (1 / o.totalPropensity s.tick)) := by
          rw [update_time_increment, if_neg h0]
        simp only [if_neg h0, hupd]
        split <;> simp
    · rw [if_neg hrt]; simp
  · intro hrt h0
    rw [gillespieStep, if_pos hrt, if_pos h0]

/-- C6 witness: a state under the loop guard whose refreshed total propensity
is zero halts with the no-reactions-left condition (and in particular the
division-by-zero outcome does not occur). -/
theorem gillespie_zero_propensity_clean_halt_witness :
    gillespieStep 1 ⟨fun _ => 0, fun _ => 1, fun _ => (0, 0)⟩ ⟨0, 0, 0, [], []⟩ =
      StepResult.halted "No reactions left" ⟨0, 0, 0, [], []⟩ :=
  (gillespie_zero_propensity_clean_halt 1 ⟨fun _ => 0, fun _ => 1, fun _ => (0, 0)⟩
      ⟨0, 0, 0, [], []⟩).2 (by norm_num) rfl

theorem gillespieStep_fired_invariant (endTime : ℚ) (o : Oracle) (s : SimState)
    (hinv : ∀ f ∈ s.firedEvents, f.2.2 < endTime) :
    (∀ reason s1, gillespieStep endTime o s = StepResult.halted reason s1 →
      ∀ f ∈ s1.firedEvents, f.2.2 < endTime) ∧
    (∀ s1, gillespieStep endTime o s = StepResult.stepped s1 →
      ∀ f ∈ s1.firedEvents, f.2.2 < endTime) := by
  rw [gillespieStep]
  by_cases hrt : s.runTime < endTime
  · rw [if_pos hrt]
    by_cases h0 : o.totalPropensity s.tick = 0
    · rw [if_pos h0]
      refine ⟨fun reason s1 h => ?_, fun s1 h => by cases h⟩
      cases h
      exact hinv
    · have hupd : update_time_increment (o.totalPropensity s.tick)
          (o.expDraw s.tick) =
          some (o.expDraw s.tick * (1 / o.totalPropensity s.tick)) := by
        rw [update_time_increment, if_neg h0]
      simp only [if_neg h0, hupd]
      by_cases hend : endTime ≤
          s.runTime + o.expDraw s.tick * (1 / o.totalPropensity s.tick)
      · simp only [if_pos hend]
        refine ⟨fun reason s1 h => ?_, fun s1 h => by cases h⟩
        cases h
        exact hinv
      · simp only [if_neg hend]
        refine ⟨fun reason s1 h => (by cases h), fun s1 h => ?_⟩
        cases h
        intro f hf
        rcases List.mem_append.mp hf with hold | hnew
        · exact hinv f hold
        · rcases List.mem_singleton.mp hnew with rfl
          simpa using lt_of_not_le hend
  · rw [if_neg hrt]
    refine ⟨fun reason s1 h => ?_, fun s1 h => by cases h⟩
    cases h
    exact hinv

/-- C8: under the loop guard with nonzero total propensity, a driver
iteration either (when the advanced time meets or passes the end time) halts
with the end-time-reached condition, firing nothing and leaving the event
counter unchanged, or (otherwise) fires exactly one selected (cell, event)
pair at the advanced time and increments the counter by exactly one; over the
whole run no logged event fires at or after the end time. -/
theorem gillespie_step_end_time_behavior :
    (∀ (endTime : ℚ) (o : Oracle) (s : SimState),
      s.runTime < endTime → o.totalPropensity s.tick ≠ 0 →
      (endTime ≤ s.runTime + o.expDraw s.tick * (1 / o.totalPropensity s.tick) →
        ∃ s1, gillespieStep endTime o s = StepResult.halted "End time reached" s1 ∧
          s1.firedEvents = s.firedEvents ∧ s1.totalEvents = s.totalEvents) ∧
      (s.runTime + o.expDraw s.tick * (1 / o.totalPropensity s.tick) < endTime →
        ∃ s2, gillespieStep endTime o s = StepResult.stepped s2 ∧
          s2.totalEvents = s.totalEvents + 1 ∧
          s2.firedEvents = s.firedEvents ++
            [((o.pick s.tick).1, (o.pick s.tick).2,
              s.runTime + o.expDraw s.tick * (1 / o.totalPropensity s.tick))])) ∧
    (∀ (endTime : ℚ) (o : Oracle) (fuel : ℕ) (s : SimState),
      (∀ f ∈ s.firedEvents, f.2.2 < endTime) →
      ∀ f ∈ (gillespieRun endTime o fuel s).1.firedEvents, f.2.2 < endTime) := by
  constructor
  · intro endTime o s hrt h0
    have hupd : update_time_increment (o.totalPropensity s.tick)
        (o.expDraw s.tick) =
        some (o.expDraw s.tick * (1 / o.totalPropensity s.tick)) := by
      rw [update_time_increment, if_neg h0]
    constructor
    · intro hend
      rw [gillespieStep, if_pos hrt]
      simp only [if_neg h0, hupd, if_pos hend]
      exact ⟨_, rfl, rfl, rfl⟩
    · intro hend
      rw [gillespieStep, if_pos hrt]
      simp only [if_neg h0, hupd, if_neg (not_le.mpr hend)]
      exact ⟨_, rfl, rfl, rfl⟩
  · intro endTime o fuel
    induction fuel with
    | zero => intro s hinv; simpa [gillespieRun] using hinv
    | succ n ih =>
      intro s hinv
      rw [gillespieRun]
      rcases hres : gillespieStep endTime o s with _ | s1 | _
      · exact (gillespieStep_fired_invariant endTime o s hinv).1 _ _ hres
      · exact ih s1 ((gillespieStep_fired_invariant endTime o s hinv).2 s1 hres)
      · simpa using hinv

/-- C8 witness: with end time 10, total propensity 2 and unit draw 2, the
state at time 0 steps, firing event (0, 0) at time 1 and bumping the counter
from 0 to 1; the run-level invariant instantiates on the empty log. -/
theorem gillespie_step_end_time_behavior_witness :
    (∃ s2, gillespieStep 10 ⟨fun _ => 2, fun _ => 2, fun _ => (0, 0)⟩
        ⟨0, 0, 0, [], []⟩ = StepResult.stepped s2 ∧
      s2.totalEvents = 0 + 1 ∧
      s2.firedEvents = [] ++ [(0, 0, 0 + 2 * (1 / 2))]) ∧
    (∀ f ∈ (gillespieRun 10 ⟨fun _ => 2, fun _ => 2, fun _ => (0, 0)⟩ 3
        ⟨0, 0, 0, [], []⟩).1.firedEvents, f.2.2 < 10) := by
  constructor
  · have h := (gillespie_step_end_time_behavior.1 10
      ⟨fun _ => 2, fun _ => 2, fun _ => (0, 0)⟩ ⟨0, 0, 0, [], []⟩
      (by norm_num) (by norm_num)).2 (by norm_num)
    simpa using h
  · exact gillespie_step_end_time_behavior.2 10
      ⟨fun _ => 2, fun _ => 2, fun _ => (0, 0)⟩ 3 ⟨0, 0, 0, [], []⟩
      (by simp)

/-- C9 evidence: on a Dynamic2DArray of one capacity row and one column,
appending [1] and then [2] stores both rows correctly — the second append
resizes crows to 2 while the inherited capacity stays stale at 1 — and the
very next add_column allocates a buffer of the stale capacity and raises the
broadcast ValueError (modelled none) instead of preserving the stored values
and zero-filling the new column. -/
theorem dynamic2d_add_column_after_resize_raises :
    ((mkDynamic2DArray 1 1).append [1]).append [2] =
      { capacity := 1, crows := 2, ccols := 1, row_size := 2,
        arr := [[1], [2]] } ∧
    (((mkDynamic2DArray 1 1).append [1]).append [2]).add_column = none :=
  ⟨rfl, rfl⟩

end Strepto
